import Mathlib

/-!
Verification development for `reservoir.py`, a single-class implementation of
reservoir sampling (Algorithm R).

The Python class `Reservoir` holds three fields (`_size`, `_samples`, `_seen`),
exposes `size` (with a validating setter), read-only properties `samples` and
`seen`, the streaming method `sample(gen, seed=None)` and `reset()`.

Randomness comes from numpy's process-wide generator.  We model the generator
as an explicit state `Rng`: a stream `uni : ℕ → ℚ` of uniform draws (the values
`np.random.uniform(size=1)` would produce), a stream `chs : ℕ → ℕ` feeding
`np.random.choice(n)` (reduced modulo `n`, so every value in `[0, n)` is
reachable), and a cursor `pos`.  Theorems quantify over the streams, so they
hold for every possible sequence of draws.

Python exceptions are modelled by `PyErr`; the spec's error-kind taxonomy
(section 7 of the spec) by `ErrKind`.
-/

namespace ReservoirSpec

/-- A Python value passed where the code expects a number: an `int`, a `float`,
or any other object (`isinstance(n, int)` is false for the latter two). -/
inductive Num : Type
  | int (n : ℤ)
  | float (q : ℚ)
  | other
deriving DecidableEq

/-- `isinstance(n, int)` from `_check_int` (src line 9). -/
def Num.isInt : Num → Bool
  | .int _ => true
  | _ => false

/-- The exact messages the source builds with `"%s must be ..." % name`,
as an enumeration (src lines 10, 15, 22). -/
inductive Msg : Type
  | sizeMustBeInt        -- "size must be an integer"
  | seedMustBeInt        -- "seed must be an integer"
  | sizeMustBePositive   -- "size must be strictly positive"
  | genNeedsIterable     -- "gen needs to be an iterable"
deriving DecidableEq

/-- Python exceptions the source can raise. -/
inductive PyErr : Type
  | typeError (m : Msg)
  | valueError (m : Msg)
  | attributeError       -- assignment to a property that has no setter
  | indexError           -- list assignment index out of range
deriving DecidableEq

/-- The concrete Python exception class of an error. -/
inductive PyClass : Type
  | typeErrorC
  | valueErrorC
  | attributeErrorC
  | indexErrorC
deriving DecidableEq

def pyClass : PyErr → PyClass
  | .typeError _ => .typeErrorC
  | .valueError _ => .valueErrorC
  | .attributeError => .attributeErrorC
  | .indexError => .indexErrorC

/-- The spec's error-kind taxonomy (spec section 7). -/
inductive ErrKind : Type
  | invalidArgument
  | notIterable
  | immutableFieldWrite
  | outOfBounds
deriving DecidableEq

/-- Modelled from the spec: section 7 classifies errors by kind, not by
concrete Python class — `InvalidArgument` covers non-integer or non-positive
capacity/seed, `NotIterable` the stream argument, `ImmutableFieldWrite` the
assignment to `sample`/`seen_count`.  The classification keys on which check
raised the error (visible in its message). -/
def errKind : PyErr → ErrKind
  | .typeError .genNeedsIterable => .notIterable
  | .typeError _ => .invalidArgument
  | .valueError _ => .invalidArgument
  | .attributeError => .immutableFieldWrite
  | .indexError => .outOfBounds

/-- `_check_int(n, name)` (src lines 8-10): raises `TypeError` unless the
value is a Python `int`; on success the integer is available. -/
def checkInt (v : Num) (m : Msg) : Except PyErr ℤ :=
  match v with
  | .int n => .ok n
  | _ => .error (.typeError m)

/-- `_check_positive_int(n, name)` (src lines 13-15): raises `ValueError`
when `n < 1`. -/
def checkPositiveInt (n : ℤ) (m : Msg) : Except PyErr Unit :=
  if n < 1 then .error (.valueError m) else .ok ()

/-- State of numpy's shared random generator, as the (arbitrary) stream of
values its draws would return plus a cursor.  `np.random.uniform(size=1)`
returns `uni pos`; `np.random.choice(n)` returns `chs pos % n`. -/
structure Rng : Type where
  uni : ℕ → ℚ
  chs : ℕ → ℕ
  pos : ℕ

/-- Modelled from the spec: `np.random.seed` "reinitializes the shared
random-number source deterministically"; the generator's internal algorithm
(numpy's MT19937) is not part of the source, so the reseeded stream is an
unspecified but fixed function of the seed. -/
def seedRng (s : ℤ) : Rng :=
  ⟨fun _ => 0, fun _ => s.natAbs, 0⟩

/-- The `Reservoir` object (src lines 28-107): fields `_size`, `_samples`,
`_seen`.  `_size` is stored as a natural number: both writers (`__init__` and
the `size` setter) validate `1 <= size` first. -/
structure Reservoir (α : Type) : Type where
  _size : ℕ
  _samples : List α
  _seen : ℕ
deriving DecidableEq

/-- `Reservoir.__init__(self, size)` (src lines 32-46): check `size` is an
int, check it is `>= 1`, then store it with an empty sample list and a zero
seen counter. -/
def Reservoir.init {α : Type} (size : Num) : Except PyErr (Reservoir α) :=
  match checkInt size .sizeMustBeInt with
  | .error e => .error e
  | .ok n =>
    match checkPositiveInt n .sizeMustBePositive with
    | .error e => .error e
    | .ok _ => .ok ⟨n.toNat, [], 0⟩

/-- The `size` property getter (src lines 48-50). -/
def Reservoir.size {α : Type} (r : Reservoir α) : ℕ := r._size

/-- The `samples` property getter (src lines 58-61): returns `self._samples`. -/
def Reservoir.samples {α : Type} (r : Reservoir α) : List α := r._samples

/-- The `seen` property getter (src lines 63-66): returns `self._seen`. -/
def Reservoir.seen {α : Type} (r : Reservoir α) : ℕ := r._seen

/-- The `size` property setter (src lines 52-56): same validation as the
constructor, then only `_size` changes. -/
def Reservoir.setSize {α : Type} (r : Reservoir α) (value : Num) :
    Except PyErr (Reservoir α) :=
  match checkInt value .sizeMustBeInt with
  | .error e => .error e
  | .ok n =>
    match checkPositiveInt n .sizeMustBePositive with
    | .error e => .error e
    | .ok _ => .ok ⟨n.toNat, r._samples, r._seen⟩

/-- `Reservoir.reset(self)` (src lines 101-107): `_seen := 0`,
`_samples := []`; the `size` attribute is *not* reset.  The method is total
and returns nothing. -/
def Reservoir.reset {α : Type} (r : Reservoir α) : Reservoir α :=
  ⟨r._size, [], 0⟩

/-- Result of running (part of) a `sample` call: the reservoir state and the
generator state at return or at the point an exception is raised, plus the
exception, if any. -/
structure Outcome (α : Type) : Type where
  res : Reservoir α
  rng : Rng
  err : Option PyErr

/-- One iteration of the `for item in gen` loop of `Reservoir.sample`
(src lines 81-99):
increment `_seen`; if the incremented count is `<= self.size`, append the item
(filling phase); otherwise compute `p = float(self.size / self._seen)` with the
already-incremented counter (written here as the exact rational
`mkRat self.size self._seen`, which equals `(self.size : ℚ) / self._seen`),
draw `np.random.uniform(size=1)` and keep the item iff the draw is `<= p`;
on keep, draw `swap_index = np.random.choice(self.size)` and execute
`self._samples[swap_index] = item`, which raises `IndexError` when the index
is not below the list length. -/
def step {α : Type} (r : Reservoir α) (g : Rng) (item : α) : Outcome α :=
  if r._seen + 1 ≤ r._size then
    ⟨⟨r._size, r._samples ++ [item], r._seen + 1⟩, g, none⟩
  else
    if g.uni g.pos ≤ mkRat (r._size : ℤ) (r._seen + 1) then
      if g.chs (g.pos + 1) % r._size < r._samples.length then
        ⟨⟨r._size, r._samples.set (g.chs (g.pos + 1) % r._size) item, r._seen + 1⟩,
          ⟨g.uni, g.chs, g.pos + 2⟩, none⟩
      else
        ⟨⟨r._size, r._samples, r._seen + 1⟩, ⟨g.uni, g.chs, g.pos + 2⟩,
          some .indexError⟩
    else
      ⟨⟨r._size, r._samples, r._seen + 1⟩, ⟨g.uni, g.chs, g.pos + 1⟩, none⟩

/-- The loop of `Reservoir.sample` over the whole stream; an exception aborts
the loop, leaving the mutations already performed in place. -/
def runItems {α : Type} : Reservoir α → Rng → List α → Outcome α
  | r, g, [] => ⟨r, g, none⟩
  | r, g, item :: rest =>
    match step r g item with
    | ⟨r', g', none⟩ => runItems r' g' rest
    | ⟨r', g', some e⟩ => ⟨r', g', some e⟩

/-- The `gen` argument of `Reservoir.sample`: either an object supporting
sequential iteration (modelled by the finite list of items it yields) or not. -/
inductive GenArg (α : Type) : Type
  | iterable (items : List α)
  | notIterable
deriving DecidableEq

/-- `Reservoir.sample(self, gen, seed=None)` (src lines 68-99):
`_check_iterable(gen)` first (its generator expression evaluates `iter(gen)`
eagerly and re-raises `TypeError`); then, when a seed was passed,
`_check_int(seed, "seed")` and only then `np.random.seed(seed)`; finally the
streaming loop.  All validation precedes any mutation of the reservoir or of
the generator state. -/
def Reservoir.sample {α : Type} (r : Reservoir α) (g : Rng) (gen : GenArg α)
    (seed : Option Num) : Outcome α :=
  match gen with
  | .notIterable => ⟨r, g, some (.typeError .genNeedsIterable)⟩
  | .iterable items =>
    match seed with
    | none => runItems r g items
    | some (.int s) => runItems r (seedRng s) items
    | some _ => ⟨r, g, some (.typeError .seedMustBeInt)⟩

/-- A sequence of `sample` calls on the same reservoir, each with an iterable
stream and an optional integer seed, threading the shared generator; a raised
exception propagates (later calls are not made). -/
def runCalls {α : Type} : Reservoir α → Rng → List (List α × Option ℤ) → Outcome α
  | r, g, [] => ⟨r, g, none⟩
  | r, g, (items, sd) :: rest =>
    match Reservoir.sample r g (.iterable items) (sd.map Num.int) with
    | ⟨r', g', none⟩ => runCalls r' g' rest
    | ⟨r', g', some e⟩ => ⟨r', g', some e⟩

/-- The length invariant maintained by ingestion while the capacity is left
alone: the sample holds `min seen size` items. -/
abbrev LenInv {α : Type} (r : Reservoir α) : Prop :=
  r._samples.length = min r._seen r._size

/-!
## Attribute assignment

Python rejects `reservoir.samples = ...` and `reservoir.seen = ...` with
`AttributeError`, because those properties (src lines 58-66) declare no
setter; `reservoir.size = value` dispatches to the validating setter
(src lines 52-56).
-/

/-- The three public attributes of the class. -/
inductive AttrName : Type
  | size
  | samples
  | seen
deriving DecidableEq

/-- A value a caller may try to assign to an attribute: a number, or some
other object such as a list. -/
inductive AttrValue (α : Type) : Type
  | num (v : Num)
  | list (xs : List α)
deriving DecidableEq

/-- Semantics of `setattr` on a `Reservoir`: `size` has a setter (validation
then update); `samples` and `seen` are properties without a setter, so any
assignment raises `AttributeError`. -/
def assignAttr {α : Type} (r : Reservoir α) (a : AttrName) (v : AttrValue α) :
    Except PyErr (Reservoir α) :=
  match a with
  | .size =>
    match v with
    | .num w => r.setSize w
    | .list _ => .error (.typeError .sizeMustBeInt)
  | .samples => .error .attributeError
  | .seen => .error .attributeError

/-!
## Aliasing of the returned sample list

The `samples` property returns `self._samples` itself — the very list object,
not a copy (src line 61; the class itself relies on the aliasing when it
calls `self.samples.append(item)` on src line 89).  To express what a caller
can do with the returned object we model list objects on a heap of numbered
cells: the reservoir stores a reference, the property hands that same
reference to the caller, and an in-place `append` through any copy of the
reference updates the shared cell.
-/

/-- A heap of Python list objects, one per address. -/
structure ListHeap (α : Type) : Type where
  store : ℕ → List α

/-- A reservoir whose `_samples` field is a reference to a heap cell. -/
structure ReservoirRef : Type where
  sizeR : ℕ
  samplesRef : ℕ
  seenR : ℕ

/-- The `samples` property under the heap model: it returns the reference
held in `_samples`, not a copy of the list. -/
def samplesRefGet (r : ReservoirRef) : ℕ := r.samplesRef

/-- `lst.append(x)` executed by any holder of the reference `ref`. -/
def heapAppend {α : Type} (h : ListHeap α) (ref : ℕ) (x : α) : ListHeap α :=
  ⟨fun a => if a = ref then h.store a ++ [x] else h.store a⟩

/-- The sample the reservoir internally holds: the content of its cell. -/
def heldSample {α : Type} (h : ListHeap α) (r : ReservoirRef) : List α :=
  h.store r.samplesRef

/-!
## Distribution model of the sampling loop

For the probabilistic correctness claim we re-express one loop iteration
(src lines 81-99) as a finitely-supported distribution over reservoir
contents.  Items are identified by their 1-based position in the combined
stream, so a state is the list `_samples` of stream positions.  The uniform
draw `u` of `np.random.uniform(size=1)` is continuous, and the code keeps the
item iff `u <= p`; for a uniform `u` on `[0,1)` that event has probability
exactly `p = size / seen`, so the acceptance test is a Bernoulli draw with
parameter `p`.  `np.random.choice(size)` is uniform on `{0, ..., size-1}`.
Distributions are association lists of (state, probability weight); all
reasoning goes through the linear functional `lsum`.
-/

/-- A finitely-supported distribution: a list of states with their weights. -/
abbrev Dist (α : Type) : Type := List (α × ℚ)

/-- The point distribution. -/
def dpure {α : Type} (a : α) : Dist α := [(a, 1)]

/-- Scale every weight by `q`. -/
def dscale {α : Type} (q : ℚ) (d : Dist α) : Dist α :=
  d.map (fun x => (x.1, q * x.2))

/-- Sequencing: draw from `d`, then from `f` applied to the result. -/
def dbind {α β : Type} : Dist α → (α → Dist β) → Dist β
  | [], _ => []
  | x :: d, f => dscale x.2 (f x.1) ++ dbind d f

/-- Expectation of `f` under the (signed, unnormalised) weights of `d`. -/
def lsum {α : Type} (f : α → ℚ) : Dist α → ℚ
  | [] => 0
  | x :: d => f x.1 * x.2 + lsum f d

/-- Total mass of a distribution. -/
def mass {α : Type} (d : Dist α) : ℚ := lsum (fun _ => 1) d

/-- Membership in the support list (weights ignored). -/
def memD {α : Type} (a : α) (d : Dist α) : Prop := ∃ q, (a, q) ∈ d

/-- The distribution of `np.random.choice(c)`: uniform on `{0, ..., c-1}`. -/
def choiceDist (c : ℕ) : Dist ℕ :=
  (List.range c).map (fun s => (s, (1 : ℚ) / c))

/-- The acceptance test `np.random.uniform(size=1) <= p` as a Bernoulli
draw: `true` with probability `p`. -/
def acceptDist (p : ℚ) : Dist Bool := [(true, p), (false, 1 - p)]

/-- Indicator of membership of stream position `j` in the sample. -/
def indMem (j : ℕ) (σ : List ℕ) : ℚ := if j ∈ σ then 1 else 0

/-- Distribution of the reservoir contents after processing stream item `k`
from contents `σ` (one iteration of src lines 81-99, with `seen = k` after the
increment): filling appends deterministically; otherwise accept with
probability `c / k` and overwrite a uniformly chosen slot in `[0, c)`. -/
def stepDist (c k : ℕ) (σ : List ℕ) : Dist (List ℕ) :=
  if k ≤ c then dpure (σ ++ [k])
  else
    dbind (acceptDist ((c : ℚ) / (k : ℚ)))
      (fun b =>
        cond b (dbind (choiceDist c) (fun s => dpure (σ.set s k))) (dpure σ))

/-- Distribution of the reservoir contents of a capacity-`c` reservoir after
ingesting the first `n` items of a stream. -/
def evolve (c : ℕ) : ℕ → Dist (List ℕ)
  | 0 => dpure []
  | n + 1 => dbind (evolve c n) (stepDist c (n + 1))

/-- Probability that stream position `j` currently occupies some slot. -/
def pmem (j : ℕ) (d : Dist (List ℕ)) : ℚ := lsum (indMem j) d

/-- Shape of every reservoir content reachable after `n` items with capacity
`c`: correct length, no duplicate stream positions, positions in `[1, n]`. -/
def Good (c n : ℕ) (σ : List ℕ) : Prop :=
  σ.length = min n c ∧ σ.Nodup ∧ ∀ x ∈ σ, 1 ≤ x ∧ x ≤ n

/-!
## Behaviour of one loop iteration and of whole calls
-/

theorem step_spec {α : Type} (r : Reservoir α) (g : Rng) (x : α)
    (hc : 1 ≤ r._size) (hinv : LenInv r) :
    (step r g x).err = none ∧ LenInv (step r g x).res ∧
      (step r g x).res._size = r._size ∧
      (step r g x).res._seen = r._seen + 1 := by
  unfold step
  split
  · refine ⟨rfl, ?_, rfl, rfl⟩
    simp only [LenInv, List.length_append, List.length_cons, List.length_nil] at hinv ⊢
    omega
  · rename_i h1
    split
    · split
      · refine ⟨rfl, ?_, rfl, rfl⟩
        simp only [LenInv, List.length_set] at hinv ⊢
        omega
      · rename_i h2
        exfalso
        have hm : g.chs (g.pos + 1) % r._size < r._size := Nat.mod_lt _ (by omega)
        simp only [LenInv] at hinv
        omega
    · refine ⟨rfl, ?_, rfl, rfl⟩
      simp only [LenInv] at hinv ⊢
      omega

theorem runItems_nil {α : Type} (r : Reservoir α) (g : Rng) :
    runItems r g [] = ⟨r, g, none⟩ := rfl

theorem runItems_cons {α : Type} (r : Reservoir α) (g : Rng) (x : α) (xs : List α) :
    runItems r g (x :: xs) =
      match step r g x with
      | ⟨r', g', none⟩ => runItems r' g' xs
      | ⟨r', g', some e⟩ => ⟨r', g', some e⟩ := rfl

theorem runItems_spec {α : Type} :
    ∀ (xs : List α) (r : Reservoir α) (g : Rng), 1 ≤ r._size → LenInv r →
      (runItems r g xs).err = none ∧ LenInv (runItems r g xs).res ∧
        (runItems r g xs).res._size = r._size ∧
        (runItems r g xs).res._seen = r._seen + xs.length := by
  intro xs
  induction xs with
  | nil => intro r g hc hinv; exact ⟨rfl, hinv, rfl, rfl⟩
  | cons x xs ih =>
    intro r g hc hinv
    have hs := step_spec r g x hc hinv
    rcases he : step r g x with ⟨r', g', e⟩
    rw [he] at hs
    obtain ⟨h1, h2, h3, h4⟩ := hs
    dsimp only at h1 h2 h3 h4
    cases e with
    | some err => exact Option.noConfusion h1
    | none =>
      rw [runItems_cons, he]
      dsimp only
      obtain ⟨i1, i2, i3, i4⟩ := ih r' g' (h3 ▸ hc) h2
      refine ⟨i1, i2, by rw [i3, h3], ?_⟩
      rw [i4, h4]
      simp only [List.length_cons]
      omega

theorem sample_ok_form {α : Type} (r : Reservoir α) (g : Rng) (items : List α)
    (sd : Option ℤ) :
    ∃ g₀ : Rng,
      Reservoir.sample r g (.iterable items) (sd.map Num.int) = runItems r g₀ items := by
  cases sd with
  | none => exact ⟨g, rfl⟩
  | some s => exact ⟨seedRng s, rfl⟩

theorem runCalls_cons {α : Type} (r : Reservoir α) (g : Rng) (items : List α)
    (sd : Option ℤ) (rest : List (List α × Option ℤ)) :
    runCalls r g ((items, sd) :: rest) =
      match Reservoir.sample r g (.iterable items) (sd.map Num.int) with
      | ⟨r', g', none⟩ => runCalls r' g' rest
      | ⟨r', g', some e⟩ => ⟨r', g', some e⟩ := rfl

theorem runCalls_spec {α : Type} :
    ∀ (calls : List (List α × Option ℤ)) (r : Reservoir α) (g : Rng),
      1 ≤ r._size → LenInv r →
      (runCalls r g calls).err = none ∧ LenInv (runCalls r g calls).res ∧
        (runCalls r g calls).res._size = r._size ∧
        (runCalls r g calls).res._seen =
          r._seen + (calls.map (fun p => p.1.length)).sum := by
  intro calls
  induction calls with
  | nil => intro r g hc hinv; exact ⟨rfl, hinv, rfl, by simp [runCalls]⟩
  | cons call rest ih =>
    intro r g hc hinv
    obtain ⟨items, sd⟩ := call
    obtain ⟨g₀, hg⟩ := sample_ok_form r g items sd
    have hs := runItems_spec items r g₀ hc hinv
    rcases he : runItems r g₀ items with ⟨r', g', e⟩
    rw [he] at hs
    obtain ⟨h1, h2, h3, h4⟩ := hs
    dsimp only at h1 h2 h3 h4
    cases e with
    | some err => exact Option.noConfusion h1
    | none =>
      rw [runCalls_cons, hg, he]
      dsimp only
      obtain ⟨i1, i2, i3, i4⟩ := ih r' g' (h3 ▸ hc) h2
      refine ⟨i1, i2, by rw [i3, h3], ?_⟩
      rw [i4, h4]
      simp only [List.map_cons, List.sum_cons]
      omega

theorem init_ok {α : Type} (c : ℤ) (r₀ : Reservoir α)
    (h : Reservoir.init (Num.int c) = .ok r₀) :
    1 ≤ c ∧ r₀ = ⟨c.toNat, [], 0⟩ := by
  unfold Reservoir.init checkInt checkPositiveInt at h
  dsimp only at h
  by_cases hlt : c < 1
  · rw [if_pos hlt] at h
    exact Except.noConfusion h
  · rw [if_neg hlt] at h
    dsimp only at h
    injection h with h
    exact ⟨by omega, h.symm⟩

theorem init_fresh_leninv {α : Type} (c : ℕ) :
    LenInv (⟨c, [], 0⟩ : Reservoir α) := by
  simp [LenInv]

/-!
## Claim theorems: invariants, frame conditions, validation
-/

/-- C1: for every capacity `c ≥ 1` and every finite sequence of ingestion
calls on a reservoir constructed with capacity `c` (capacity not mutated in
between), after each call the sample length equals `min seen_count c` — so
it equals `seen_count` while `seen_count ≤ c` and stays `c` afterwards. -/
theorem capacity_bound {α : Type} (c : ℤ) (r₀ : Reservoir α)
    (h : Reservoir.init (Num.int c) = .ok r₀) (g : Rng)
    (calls : List (List α × Option ℤ)) :
    (Reservoir.samples (runCalls r₀ g calls).res).length =
      min (Reservoir.seen (runCalls r₀ g calls).res) c.toNat := by
  obtain ⟨hc, hr⟩ := init_ok c r₀ h
  have hsz : r₀._size = c.toNat := by rw [hr]
  have hinv : LenInv r₀ := by rw [hr]; exact init_fresh_leninv c.toNat
  obtain ⟨-, h2, h3, -⟩ :=
    runCalls_spec calls r₀ g (by omega) hinv
  simpa [Reservoir.samples, Reservoir.seen, LenInv, h3, hsz] using h2

theorem capacity_bound_witness :
    (Reservoir.samples
        (runCalls (⟨1, [], 0⟩ : Reservoir ℕ) ⟨fun _ => 0, fun _ => 0, 0⟩
          [([3, 4, 5], none)]).res).length =
      min (Reservoir.seen
        (runCalls (⟨1, [], 0⟩ : Reservoir ℕ) ⟨fun _ => 0, fun _ => 0, 0⟩
          [([3, 4, 5], none)]).res) (1 : ℤ).toNat :=
  capacity_bound 1 ⟨1, [], 0⟩ rfl ⟨fun _ => 0, fun _ => 0, 0⟩ [([3, 4, 5], none)]

/-- C4: for a reservoir constructed with capacity `c ≥ 1`, after a sequence
of `sample` calls with streams of lengths `n1, ..., nk` (no intervening
reset), `seen_count` equals `n1 + ... + nk`: the count accumulates
cumulatively across calls, as if the streams composed into one stream. -/
theorem count_accumulation {α : Type} (c : ℤ) (r₀ : Reservoir α)
    (h : Reservoir.init (Num.int c) = .ok r₀) (g : Rng)
    (calls : List (List α × Option ℤ)) :
    Reservoir.seen (runCalls r₀ g calls).res =
      (calls.map (fun p => p.1.length)).sum := by
  obtain ⟨hc, hr⟩ := init_ok c r₀ h
  have hsz : r₀._size = c.toNat := by rw [hr]
  have hs0 : r₀._seen = 0 := by rw [hr]
  have hinv : LenInv r₀ := by rw [hr]; exact init_fresh_leninv c.toNat
  obtain ⟨-, -, -, h4⟩ := runCalls_spec calls r₀ g (by omega) hinv
  simpa [Reservoir.seen, hs0] using h4

theorem count_accumulation_witness :
    Reservoir.seen
        (runCalls (⟨1, [], 0⟩ : Reservoir ℕ) ⟨fun _ => 0, fun _ => 0, 0⟩
          [([3, 4, 5], none), ([6, 7], some 0)]).res =
      ([([3, 4, 5], (none : Option ℤ)), ([6, 7], some 0)].map
        (fun p => p.1.length)).sum :=
  count_accumulation 1 ⟨1, [], 0⟩ rfl ⟨fun _ => 0, fun _ => 0, 0⟩
    [([3, 4, 5], none), ([6, 7], some 0)]

/-- C5: construction and capacity mutation fail with an
`InvalidArgument`-kind error when the argument is not an integer, and fail
with the same error kind when the argument is `< 1`. -/
theorem validation_invalid_argument :
    (∀ v : Num, v.isInt = false →
      ∃ e, (Reservoir.init v : Except PyErr (Reservoir ℕ)) = .error e ∧
        errKind e = ErrKind.invalidArgument) ∧
    (∀ n : ℤ, n < 1 →
      ∃ e, (Reservoir.init (Num.int n) : Except PyErr (Reservoir ℕ)) = .error e ∧
        errKind e = ErrKind.invalidArgument) ∧
    (∀ (r : Reservoir ℕ) (v : Num), v.isInt = false →
      ∃ e, r.setSize v = .error e ∧ errKind e = ErrKind.invalidArgument) ∧
    (∀ (r : Reservoir ℕ) (n : ℤ), n < 1 →
      ∃ e, r.setSize (Num.int n) = .error e ∧
        errKind e = ErrKind.invalidArgument) := by
  refine ⟨?_, ?_, ?_, ?_⟩
  · intro v hv
    cases v with
    | int n => exact Bool.noConfusion hv
    | float q => exact ⟨.typeError .sizeMustBeInt, rfl, rfl⟩
    | other => exact ⟨.typeError .sizeMustBeInt, rfl, rfl⟩
  · intro n hn
    refine ⟨.valueError .sizeMustBePositive, ?_, rfl⟩
    simp [Reservoir.init, checkInt, checkPositiveInt, hn]
  · intro r v hv
    cases v with
    | int n => exact Bool.noConfusion hv
    | float q => exact ⟨.typeError .sizeMustBeInt, rfl, rfl⟩
    | other => exact ⟨.typeError .sizeMustBeInt, rfl, rfl⟩
  · intro r n hn
    refine ⟨.valueError .sizeMustBePositive, ?_, rfl⟩
    simp [Reservoir.setSize, checkInt, checkPositiveInt, hn]

theorem validation_invalid_argument_witness :
    (∃ e, (Reservoir.init (Num.float (3 / 2)) : Except PyErr (Reservoir ℕ)) =
        .error e ∧ errKind e = ErrKind.invalidArgument) ∧
    (∃ e, (Reservoir.init (Num.int (-5)) : Except PyErr (Reservoir ℕ)) =
        .error e ∧ errKind e = ErrKind.invalidArgument) ∧
    (∃ e, (⟨2, [], 0⟩ : Reservoir ℕ).setSize (Num.float (3 / 2)) = .error e ∧
        errKind e = ErrKind.invalidArgument) ∧
    (∃ e, (⟨2, [], 0⟩ : Reservoir ℕ).setSize (Num.int 0) = .error e ∧
        errKind e = ErrKind.invalidArgument) :=
  ⟨validation_invalid_argument.1 (Num.float (3 / 2)) rfl,
    validation_invalid_argument.2.1 (-5) (by decide),
    validation_invalid_argument.2.2.1 ⟨2, [], 0⟩ (Num.float (3 / 2)) rfl,
    validation_invalid_argument.2.2.2 ⟨2, [], 0⟩ 0 (by decide)⟩

/-- C6, counterexample: the claim that a caller can never mutate the
reservoir's internally held sample through the value returned by the
`samples` property is false.  The property returns the internal list object
itself (src line 61), so a caller holding the returned reference and
appending `42` in place changes the reservoir's sample from `[]` to `[42]`
without invoking any `Reservoir` operation. -/
theorem readonly_alias_cex :
    heldSample
        (heapAppend (⟨fun _ => []⟩ : ListHeap ℕ) (samplesRefGet ⟨1, 0, 0⟩) 42)
        ⟨1, 0, 0⟩ = [42] ∧
    heldSample (⟨fun _ => []⟩ : ListHeap ℕ) ⟨1, 0, 0⟩ = [] :=
  ⟨rfl, rfl⟩

/-- C6, amended: `samples` and `seen` are readable and return the current
values, and any attempt to assign to either property is rejected with
`AttributeError` (the spec's `ImmutableFieldWrite` kind) rather than silently
accepted; however the returned sample list is the internal list object
itself, so in-place mutation through it does reach the reservoir's state
(see `readonly_alias_cex`) — only rebinding the attribute is rejected. -/
theorem readonly_rejection {α : Type} (r : Reservoir α) (v : AttrValue α) :
    assignAttr r AttrName.samples v = .error PyErr.attributeError ∧
    assignAttr r AttrName.seen v = .error PyErr.attributeError ∧
    errKind PyErr.attributeError = ErrKind.immutableFieldWrite ∧
    Reservoir.samples r = r._samples ∧ Reservoir.seen r = r._seen :=
  ⟨rfl, rfl, rfl, rfl, rfl⟩

/-- C7: calling `sample` with a non-iterable `gen`, or with a provided
non-integer `seed`, fails with a `TypeError`-class error (the same Python
class in both cases), and in every such failure no state mutation has
occurred: the reservoir (sample, seen count and capacity) and the shared
random generator are returned exactly as they were — in particular the
generator has not been reseeded. -/
theorem sample_validation_no_mutation {α : Type} (r : Reservoir α) (g : Rng)
    (gen : GenArg α) (sd : Option Num) :
    (gen = GenArg.notIterable →
      Reservoir.sample r g gen sd =
        ⟨r, g, some (PyErr.typeError Msg.genNeedsIterable)⟩ ∧
      pyClass (PyErr.typeError Msg.genNeedsIterable) = PyClass.typeErrorC) ∧
    (∀ v : Num, sd = some v → v.isInt = false → gen ≠ GenArg.notIterable →
      Reservoir.sample r g gen sd =
        ⟨r, g, some (PyErr.typeError Msg.seedMustBeInt)⟩ ∧
      pyClass (PyErr.typeError Msg.seedMustBeInt) = PyClass.typeErrorC) := by
  constructor
  · rintro rfl
    exact ⟨rfl, rfl⟩
  · rintro v rfl hv hgen
    cases gen with
    | notIterable => exact absurd rfl hgen
    | iterable items =>
      cases v with
      | int n => exact Bool.noConfusion hv
      | float q => exact ⟨rfl, rfl⟩
      | other => exact ⟨rfl, rfl⟩

theorem sample_validation_no_mutation_witness :
    ((GenArg.notIterable : GenArg ℕ) = GenArg.notIterable →
      Reservoir.sample (⟨2, [7], 1⟩ : Reservoir ℕ) ⟨fun _ => 0, fun _ => 0, 0⟩
          GenArg.notIterable (some (Num.float (1 / 2))) =
        ⟨⟨2, [7], 1⟩, ⟨fun _ => 0, fun _ => 0, 0⟩,
          some (PyErr.typeError Msg.genNeedsIterable)⟩ ∧
      pyClass (PyErr.typeError Msg.genNeedsIterable) = PyClass.typeErrorC) ∧
    (∀ v : Num, (some (Num.float (1 / 2)) : Option Num) = some v →
      v.isInt = false → (GenArg.notIterable : GenArg ℕ) ≠ GenArg.notIterable →
      Reservoir.sample (⟨2, [7], 1⟩ : Reservoir ℕ) ⟨fun _ => 0, fun _ => 0, 0⟩
          GenArg.notIterable (some (Num.float (1 / 2))) =
        ⟨⟨2, [7], 1⟩, ⟨fun _ => 0, fun _ => 0, 0⟩,
          some (PyErr.typeError Msg.seedMustBeInt)⟩ ∧
      pyClass (PyErr.typeError Msg.seedMustBeInt) = PyClass.typeErrorC) :=
  sample_validation_no_mutation ⟨2, [7], 1⟩ ⟨fun _ => 0, fun _ => 0, 0⟩
    GenArg.notIterable (some (Num.float (1 / 2)))

/-- C8: `reset` sets `seen_count` to 0 and the sample to empty, leaves the
capacity exactly as it was, and — being a total function returning no
value — has no failure modes. -/
theorem reset_spec {α : Type} (r : Reservoir α) :
    Reservoir.seen (Reservoir.reset r) = 0 ∧
    Reservoir.samples (Reservoir.reset r) = [] ∧
    Reservoir.size (Reservoir.reset r) = Reservoir.size r :=
  ⟨rfl, rfl, rfl⟩

/-- C9: for every reservoir and every valid new capacity (an integer
`≥ 1`), the setter changes only the stored capacity; the sample list and the
seen count are left exactly as they were, with no re-sampling or
truncation, even if the sample is now inconsistent with the new capacity. -/
theorem setSize_frame {α : Type} (r : Reservoir α) (n : ℤ) (h : 1 ≤ n) :
    Reservoir.setSize r (Num.int n) = .ok ⟨n.toNat, r._samples, r._seen⟩ ∧
    (n.toNat : ℤ) = n := by
  constructor
  · unfold Reservoir.setSize checkInt checkPositiveInt
    dsimp only
    rw [if_neg (by omega : ¬ n < 1)]
  · omega

theorem setSize_frame_witness :
    Reservoir.setSize (⟨5, [8, 9], 7⟩ : Reservoir ℕ) (Num.int 2) =
      .ok ⟨(2 : ℤ).toNat, [8, 9], 7⟩ ∧ (((2 : ℤ).toNat : ℤ) = 2) :=
  setSize_frame ⟨5, [8, 9], 7⟩ 2 (by decide)

/-- C10: when the capacity is never mutated after construction, every
replacement-phase slot draw is in bounds, so no ingestion call ever raises
(first conjunct: from a constructed reservoir, `runCalls` never returns an
error, whatever the draws).  But after `set_capacity` raises the capacity
above the current sample length while `seen_count` already exceeds the old
capacity, a later `sample` call can draw a slot index `≥ length(sample)` and
the overwrite raises `IndexError` (remaining conjuncts: a concrete run — fill
to `[1, 2]` with capacity 2 and 5 items seen, raise the capacity to 10,
ingest 6 more items; the sample has grown only to length 7 when the slot
draw returns 9, and the call raises). -/
theorem slot_bound_safety_and_fault :
    (∀ (c : ℤ) (r₀ : Reservoir ℕ) (g : Rng) (calls : List (List ℕ × Option ℤ)),
      Reservoir.init (Num.int c) = .ok r₀ → (runCalls r₀ g calls).err = none) ∧
    (Reservoir.sample (⟨2, [], 0⟩ : Reservoir ℕ) ⟨fun _ => 1, fun _ => 0, 0⟩
        (GenArg.iterable [1, 2, 3, 4, 5]) none).res = ⟨2, [1, 2], 5⟩ ∧
    Reservoir.setSize (⟨2, [1, 2], 5⟩ : Reservoir ℕ) (Num.int 10) =
      .ok ⟨10, [1, 2], 5⟩ ∧
    (Reservoir.sample (⟨10, [1, 2], 5⟩ : Reservoir ℕ) ⟨fun _ => 0, fun _ => 9, 0⟩
        (GenArg.iterable [6, 7, 8, 9, 10, 11]) none).err =
      some PyErr.indexError := by
  refine ⟨?_, ?_, ?_, ?_⟩
  · intro c r₀ g calls h
    obtain ⟨hc, hr⟩ := init_ok c r₀ h
    have hsz : r₀._size = c.toNat := by rw [hr]
    have hinv : LenInv r₀ := by rw [hr]; exact init_fresh_leninv c.toNat
    exact (runCalls_spec calls r₀ g (by omega) hinv).1
  · decide
  · rfl
  · decide

theorem slot_bound_safety_and_fault_witness :
    (runCalls (⟨1, [], 0⟩ : Reservoir ℕ) ⟨fun _ => 0, fun _ => 0, 0⟩
      [([3, 4, 5], none)]).err = none :=
  slot_bound_safety_and_fault.1 1 ⟨1, [], 0⟩ ⟨fun _ => 0, fun _ => 0, 0⟩
    [([3, 4, 5], none)] rfl

/-!
## Lemmas about the distribution combinators
-/

theorem lsum_map_pair {α β : Type} (f : β → ℚ) (gf : α → β) (q : ℚ) (l : List α) :
    lsum f (l.map (fun a => (gf a, q))) = ((l.map (fun a => f (gf a))).sum) * q := by
  induction l with
  | nil => simp [lsum]
  | cons a l ih =>
    simp only [List.map_cons, lsum, List.sum_cons, ih]
    ring

theorem sum_indicator_range (c i : ℕ) (hi : i < c) :
    ((List.range c).map (fun s => if s = i then (1 : ℚ) else 0)).sum = 1 := by
  induction c with
  | zero => omega
  | succ c ih =>
    rw [List.range_succ]
    rcases Nat.lt_or_ge i c with h | h
    · simp only [List.map_append, List.sum_append, List.map_cons, List.map_nil,
        List.sum_cons, List.sum_nil]
      rw [ih h, if_neg (by omega : ¬ c = i)]
      ring
    · have hic : i = c := by omega
      subst hic
      have hz : ((List.range i).map (fun s => if s = i then (1 : ℚ) else 0)).sum = 0 := by
        apply List.sum_eq_zero
        intro x hx
        obtain ⟨s, hs, rfl⟩ := List.mem_map.1 hx
        rw [if_neg (by have := List.mem_range.1 hs; omega)]
      simp only [List.map_append, List.sum_append, List.map_cons, List.map_nil,
        List.sum_cons, List.sum_nil]
      rw [hz]
      norm_num

theorem sum_indicator_ne_range (c i : ℕ) (hi : i < c) :
    ((List.range c).map (fun s => if s = i then (0 : ℚ) else 1)).sum = (c : ℚ) - 1 := by
  induction c with
  | zero => omega
  | succ c ih =>
    rw [List.range_succ]
    simp only [List.map_append, List.sum_append, List.map_cons, List.map_nil,
      List.sum_cons, List.sum_nil]
    rcases Nat.lt_or_ge i c with h | h
    · rw [ih h, if_neg (by omega : ¬ c = i)]
      push_cast
      ring
    · have hic : i = c := by omega
      subst hic
      have ho : ((List.range i).map (fun s => if s = i then (0 : ℚ) else 1)).sum
          = (i : ℚ) := by
        have hmap : (List.range i).map (fun s => if s = i then (0 : ℚ) else 1)
            = (List.range i).map (fun _ => (1 : ℚ)) := by
          apply List.map_congr_left
          intro s hs
          rw [if_neg (by have := List.mem_range.1 hs; omega)]
        rw [hmap, List.map_const', List.sum_replicate, List.length_range]
        simp [nsmul_eq_mul]
      rw [ho]
      push_cast
      norm_num

theorem lsum_choiceDist_uniform (c i : ℕ) (hi : i < c) :
    lsum (fun s => if s = i then 1 else 0) (choiceDist c) = 1 / (c : ℚ) := by
  unfold choiceDist
  rw [lsum_map_pair, sum_indicator_range c i hi, one_mul]

theorem lsum_acceptDist_true (p : ℚ) :
    lsum (fun b => if b then 1 else 0) (acceptDist p) = p := by
  simp [acceptDist, lsum]

/-- C2: for each item processed while the post-increment `seen_count`
exceeds the capacity, the acceptance probability is `capacity / seen_count`
with the post-increment count; exactly one uniform value `u` is drawn (the
cursor advances past it); if `u ≤ p` exactly one further draw selects the
slot, the selected index lies in `[0, capacity)` and exactly that slot is
overwritten with the new item; if `u > p` the item is discarded, the sample
is unchanged and no slot draw is consumed.  The final two conjuncts record
the distributions of the two draws: the slot draw is uniform (each index
below the capacity has probability `1 / capacity`) and the acceptance draw
succeeds with probability exactly `p`. -/
theorem replacement_step {α : Type} (r : Reservoir α) (g : Rng) (x : α)
    (hc : 1 ≤ r._size) (hfull : r._size ≤ r._seen) (hinv : LenInv r) :
    ((g.uni g.pos ≤ (r._size : ℚ) / ((r._seen + 1 : ℕ) : ℚ) →
        step r g x =
          ⟨⟨r._size, r._samples.set (g.chs (g.pos + 1) % r._size) x, r._seen + 1⟩,
            ⟨g.uni, g.chs, g.pos + 2⟩, none⟩ ∧
        g.chs (g.pos + 1) % r._size < r._size) ∧
      (¬ g.uni g.pos ≤ (r._size : ℚ) / ((r._seen + 1 : ℕ) : ℚ) →
        step r g x =
          ⟨⟨r._size, r._samples, r._seen + 1⟩, ⟨g.uni, g.chs, g.pos + 1⟩, none⟩)) ∧
    (∀ i : ℕ, i < r._size →
        lsum (fun s => if s = i then 1 else 0) (choiceDist r._size) =
          1 / (r._size : ℚ)) ∧
    lsum (fun b => if b then 1 else 0)
        (acceptDist ((r._size : ℚ) / ((r._seen + 1 : ℕ) : ℚ))) =
      (r._size : ℚ) / ((r._seen + 1 : ℕ) : ℚ) := by
  have hp : mkRat (r._size : ℤ) (r._seen + 1) =
      (r._size : ℚ) / ((r._seen + 1 : ℕ) : ℚ) := by
    rw [Rat.mkRat_eq_div]
    push_cast
    ring
  have hmod : g.chs (g.pos + 1) % r._size < r._size := Nat.mod_lt _ (by omega)
  have hlen : r._samples.length = r._size := by
    simp only [LenInv] at hinv; omega
  refine ⟨⟨?_, ?_⟩, fun i hi => lsum_choiceDist_uniform r._size i hi,
    lsum_acceptDist_true _⟩
  · intro hu
    refine ⟨?_, hmod⟩
    unfold step
    rw [if_neg (by omega : ¬ r._seen + 1 ≤ r._size), hp, if_pos hu,
      if_pos (by omega : g.chs (g.pos + 1) % r._size < r._samples.length)]
  · intro hu
    unfold step
    rw [if_neg (by omega : ¬ r._seen + 1 ≤ r._size), hp, if_neg hu]

theorem replacement_step_witness :
    (((0 : ℚ) ≤ ((1 : ℕ) : ℚ) / ((4 : ℕ) : ℚ) →
        step (⟨1, [5], 3⟩ : Reservoir ℕ) ⟨fun _ => 0, fun _ => 0, 0⟩ 9 =
          ⟨⟨1, [9], 4⟩, ⟨fun _ => 0, fun _ => 0, 2⟩, none⟩ ∧ 0 % 1 < 1) ∧
      (¬ (0 : ℚ) ≤ ((1 : ℕ) : ℚ) / ((4 : ℕ) : ℚ) →
        step (⟨1, [5], 3⟩ : Reservoir ℕ) ⟨fun _ => 0, fun _ => 0, 0⟩ 9 =
          ⟨⟨1, [5], 4⟩, ⟨fun _ => 0, fun _ => 0, 1⟩, none⟩)) ∧
    (∀ i : ℕ, i < 1 →
        lsum (fun s => if s = i then 1 else 0) (choiceDist 1) = 1 / ((1 : ℕ) : ℚ)) ∧
    lsum (fun b => if b then 1 else 0)
        (acceptDist (((1 : ℕ) : ℚ) / ((4 : ℕ) : ℚ))) =
      ((1 : ℕ) : ℚ) / ((4 : ℕ) : ℚ) :=
  replacement_step ⟨1, [5], 3⟩ ⟨fun _ => 0, fun _ => 0, 0⟩ 9 (by decide) (by decide)
    (by decide)

/-!
## Linearity of `lsum` and support lemmas
-/

theorem lsum_append {α : Type} (f : α → ℚ) (d e : Dist α) :
    lsum f (d ++ e) = lsum f d + lsum f e := by
  induction d with
  | nil => simp [lsum]
  | cons x d ih =>
    show f x.1 * x.2 + lsum f (d ++ e) = f x.1 * x.2 + lsum f d + lsum f e
    rw [ih]
    ring

theorem lsum_dscale {α : Type} (f : α → ℚ) (q : ℚ) (d : Dist α) :
    lsum f (dscale q d) = q * lsum f d := by
  induction d with
  | nil => simp [lsum, dscale]
  | cons x d ih =>
    simp only [dscale, List.map_cons, lsum] at ih ⊢
    rw [ih]
    ring

theorem lsum_dbind {α β : Type} (f : β → ℚ) (d : Dist α) (h : α → Dist β) :
    lsum f (dbind d h) = lsum (fun a => lsum f (h a)) d := by
  induction d with
  | nil => rfl
  | cons x d ih =>
    simp only [dbind, lsum_append, lsum_dscale, lsum, ih]
    ring

theorem lsum_congr {α : Type} (f f' : α → ℚ) (d : Dist α)
    (h : ∀ x ∈ d, f x.1 = f' x.1) : lsum f d = lsum f' d := by
  induction d with
  | nil => rfl
  | cons x d ih =>
    simp only [lsum]
    rw [h x (List.mem_cons_self x d), ih (fun y hy => h y (List.mem_cons_of_mem x hy))]

theorem lsum_mul_left {α : Type} (q : ℚ) (f : α → ℚ) (d : Dist α) :
    lsum (fun a => q * f a) d = q * lsum f d := by
  induction d with
  | nil => simp [lsum]
  | cons x d ih =>
    simp only [lsum, ih]
    ring

theorem lsum_dpure {α : Type} (f : α → ℚ) (a : α) : lsum f (dpure a) = f a := by
  simp [dpure, lsum]

theorem lsum_const_mass {α : Type} (q : ℚ) (d : Dist α) :
    lsum (fun _ => q) d = q * mass d := by
  unfold mass
  induction d with
  | nil => simp [lsum]
  | cons x d ih =>
    simp only [lsum, ih]
    ring

theorem lsum_acceptDist_eval (f : Bool → ℚ) (p : ℚ) :
    lsum f (acceptDist p) = f true * p + f false * (1 - p) := by
  simp [acceptDist, lsum]

theorem lsum_one_map_pair {α β : Type} (gf : α → β) (q : ℚ) (l : List α) :
    lsum (fun _ => (1 : ℚ)) (l.map (fun a => (gf a, q))) = l.length * q := by
  induction l with
  | nil => simp [lsum]
  | cons a l ih =>
    simp only [List.map_cons, lsum, List.length_cons, ih]
    push_cast
    ring

theorem memD_dpure {α : Type} (a b : α) (h : memD a (dpure b)) : a = b := by
  obtain ⟨q, hq⟩ := h
  simp only [dpure, List.mem_singleton] at hq
  exact congrArg Prod.fst hq

theorem memD_dscale {α : Type} (a : α) (q : ℚ) (d : Dist α)
    (h : memD a (dscale q d)) : memD a d := by
  obtain ⟨p, hp⟩ := h
  unfold dscale at hp
  obtain ⟨y, hy, heq⟩ := List.mem_map.1 hp
  have h1 : y.1 = a := congrArg Prod.fst heq
  refine ⟨y.2, ?_⟩
  rw [← h1, Prod.mk.eta]
  exact hy

theorem memD_dbind {α β : Type} (b : β) (d : Dist α) (f : α → Dist β)
    (h : memD b (dbind d f)) : ∃ a, memD a d ∧ memD b (f a) := by
  induction d with
  | nil => obtain ⟨q, hq⟩ := h; simp [dbind] at hq
  | cons x d ih =>
    obtain ⟨q, hq⟩ := h
    simp only [dbind] at hq
    rcases List.mem_append.1 hq with hq1 | hq1
    · exact ⟨x.1, ⟨x.2, List.mem_cons_self x d⟩, memD_dscale b x.2 (f x.1) ⟨q, hq1⟩⟩
    · obtain ⟨a, ha, hb⟩ := ih ⟨q, hq1⟩
      obtain ⟨p, hp⟩ := ha
      exact ⟨a, ⟨p, List.mem_cons_of_mem x hp⟩, hb⟩

/-!
## Mass and support shape of the evolving distribution
-/

theorem mass_choiceDist (c : ℕ) (hc : 1 ≤ c) : mass (choiceDist c) = 1 := by
  have hne : (c : ℚ) ≠ 0 := Nat.cast_ne_zero.mpr (by omega)
  unfold mass choiceDist
  rw [lsum_one_map_pair, List.length_range, mul_one_div, div_self hne]

theorem mass_stepDist (c k : ℕ) (hc : 1 ≤ c) (σ : List ℕ) :
    mass (stepDist c k σ) = 1 := by
  unfold stepDist
  split
  · simp [mass, dpure, lsum]
  · unfold mass
    rw [lsum_dbind, lsum_acceptDist_eval]
    simp only [Bool.cond_true, Bool.cond_false]
    rw [lsum_dbind]
    have hpoint : ∀ x ∈ choiceDist c,
        lsum (fun _ => (1 : ℚ)) (dpure (σ.set x.1 k)) = (1 : ℚ) :=
      fun x _ => lsum_dpure _ _
    rw [lsum_congr _ (fun _ => (1 : ℚ)) _ hpoint]
    have hmc : lsum (fun _ => (1 : ℚ)) (choiceDist c) = 1 := mass_choiceDist c hc
    rw [hmc, lsum_dpure]
    ring

theorem mass_evolve (c : ℕ) (hc : 1 ≤ c) (n : ℕ) : mass (evolve c n) = 1 := by
  induction n with
  | zero => simp [evolve, mass, dpure, lsum]
  | succ n ih =>
    show mass (dbind (evolve c n) (stepDist c (n + 1))) = 1
    unfold mass
    rw [lsum_dbind]
    rw [lsum_congr _ (fun _ => (1 : ℚ)) _ (fun x _ => mass_stepDist c (n + 1) hc x.1)]
    exact ih

theorem good_stepDist (c n : ℕ) (σ τ : List ℕ) (hg : Good c n σ)
    (hm : memD τ (stepDist c (n + 1) σ)) : Good c (n + 1) τ := by
  obtain ⟨hlen, hnd, hbound⟩ := hg
  have hnotin : (n + 1) ∉ σ := fun hmem => by have := (hbound _ hmem).2; omega
  unfold stepDist at hm
  by_cases hk : n + 1 ≤ c
  · rw [if_pos hk] at hm
    have hτ : τ = σ ++ [n + 1] := memD_dpure _ _ hm
    subst hτ
    refine ⟨?_, hnd.append (List.nodup_singleton _) ?_, ?_⟩
    · simp only [List.length_append, List.length_cons, List.length_nil]
      omega
    · intro x hx hx2
      rw [List.mem_singleton] at hx2
      subst hx2
      exact hnotin hx
    · intro x hx
      rcases List.mem_append.1 hx with hx | hx
      · have := hbound x hx
        omega
      · rw [List.mem_singleton] at hx
        omega
  · rw [if_neg hk] at hm
    obtain ⟨b, hb, hτ⟩ := memD_dbind τ _ _ hm
    cases b with
    | false =>
      simp only [Bool.cond_false] at hτ
      have hτσ : τ = σ := memD_dpure _ _ hτ
      subst hτσ
      refine ⟨by omega, hnd, fun x hx => by have := hbound x hx; omega⟩
    | true =>
      simp only [Bool.cond_true] at hτ
      obtain ⟨s, hs, hτ2⟩ := memD_dbind τ _ _ hτ
      have hτset : τ = σ.set s (n + 1) := memD_dpure _ _ hτ2
      subst hτset
      refine ⟨by rw [List.length_set]; omega, hnd.set hnotin, ?_⟩
      intro x hx
      rcases List.mem_or_eq_of_mem_set hx with hx | hx
      · have := hbound x hx
        omega
      · omega

theorem good_evolve (c : ℕ) :
    ∀ n σ, memD σ (evolve c n) → Good c n σ := by
  intro n
  induction n with
  | zero =>
    intro σ h
    have hσ : σ = [] := memD_dpure _ _ h
    subst hσ
    exact ⟨by simp, List.nodup_nil, by simp⟩
  | succ n ih =>
    intro σ h
    obtain ⟨τ, hτ, hστ⟩ := memD_dbind σ (evolve c n) (stepDist c (n + 1)) h
    exact good_stepDist c n τ σ (ih τ hτ) hστ

/-!
## Where a surviving item can sit: positional lemmas
-/

theorem mem_set_iff_nodup (σ : List ℕ) (j k : ℕ) (hnd : σ.Nodup) (hj : j ∈ σ)
    (hjk : j ≠ k) (s : ℕ) (_hs : s < σ.length) :
    j ∈ σ.set s k ↔ ¬ s = σ.indexOf j := by
  have hidx : σ.indexOf j < σ.length := List.indexOf_lt_length.2 hj
  constructor
  · intro hmem heq
    obtain ⟨t, ht⟩ := List.mem_iff_get.1 hmem
    have htlen : (t : ℕ) < σ.length := by
      have h2 := t.2
      simpa [List.length_set] using h2
    by_cases hts : (t : ℕ) = s
    · have hk2 : (σ.set s k).get t = k := by
        rw [List.get_eq_getElem]
        simp [hts, List.getElem_set_self]
      exact hjk (ht.symm.trans hk2)
    · have hget : (σ.set s k).get t = σ.get ⟨t, htlen⟩ := by
        rw [List.get_eq_getElem, List.get_eq_getElem]
        exact List.getElem_set_ne (fun hh => hts hh.symm) _
      have hj2 : σ.get ⟨(t : ℕ), htlen⟩ = j := by rw [← hget, ht]
      have hidxget : σ.get ⟨σ.indexOf j, hidx⟩ = j := List.indexOf_get hidx
      have hinj := List.nodup_iff_injective_get.1 hnd
      have hfin := hinj (hj2.trans hidxget.symm)
      have hval : (t : ℕ) = σ.indexOf j := congrArg Fin.val hfin
      omega
  · intro hne
    apply List.mem_iff_get.2
    refine ⟨⟨σ.indexOf j, by rw [List.length_set]; exact hidx⟩, ?_⟩
    rw [List.get_eq_getElem]
    have hset := List.getElem_set_ne
      (show s ≠ σ.indexOf j from hne) (l := σ) (a := k)
      (by rw [List.length_set]; exact hidx)
    rw [hset]
    have hig := List.indexOf_get (a := j) (l := σ) hidx
    rw [List.get_eq_getElem] at hig
    exact hig

theorem sum_mem_set_self (σ : List ℕ) (k : ℕ) :
    ((List.range σ.length).map (fun s => if k ∈ σ.set s k then (1 : ℚ) else 0)).sum
      = (σ.length : ℚ) := by
  have hmap : (List.range σ.length).map (fun s => if k ∈ σ.set s k then (1 : ℚ) else 0)
      = (List.range σ.length).map (fun _ => (1 : ℚ)) := by
    apply List.map_congr_left
    intro s hs
    have hs' : s < σ.length := List.mem_range.1 hs
    rw [if_pos]
    apply List.mem_iff_get.2
    refine ⟨⟨s, by rw [List.length_set]; exact hs'⟩, ?_⟩
    rw [List.get_eq_getElem]
    exact List.getElem_set_self _
  rw [hmap, List.map_const', List.sum_replicate, List.length_range, nsmul_eq_mul,
    mul_one]

theorem sum_mem_set_of_mem (σ : List ℕ) (j k : ℕ) (hnd : σ.Nodup) (hj : j ∈ σ)
    (hjk : j ≠ k) :
    ((List.range σ.length).map (fun s => if j ∈ σ.set s k then (1 : ℚ) else 0)).sum
      = (σ.length : ℚ) - 1 := by
  have hidx : σ.indexOf j < σ.length := List.indexOf_lt_length.2 hj
  have hmap : (List.range σ.length).map (fun s => if j ∈ σ.set s k then (1 : ℚ) else 0)
      = (List.range σ.length).map (fun s => if s = σ.indexOf j then (0 : ℚ) else 1) := by
    apply List.map_congr_left
    intro s hs
    have hs' : s < σ.length := List.mem_range.1 hs
    have hiff := mem_set_iff_nodup σ j k hnd hj hjk s hs'
    by_cases h : s = σ.indexOf j
    · rw [if_neg (fun hmem => hiff.1 hmem h), if_pos h]
    · rw [if_pos (hiff.2 h), if_neg h]
  rw [hmap, sum_indicator_ne_range σ.length (σ.indexOf j) hidx]

theorem sum_mem_set_of_notmem (σ : List ℕ) (j k : ℕ) (hj : j ∉ σ) (hjk : j ≠ k) :
    ((List.range σ.length).map
      (fun s => if j ∈ σ.set s k then (1 : ℚ) else 0)).sum = 0 := by
  apply List.sum_eq_zero
  intro x hx
  obtain ⟨s, hs, rfl⟩ := List.mem_map.1 hx
  rw [if_neg]
  intro hmem
  rcases List.mem_or_eq_of_mem_set hmem with h | h
  · exact hj h
  · exact hjk h

/-!
## Membership probability through one replacement step
-/

theorem pmem_stepDist_fill (c k j : ℕ) (hk : k ≤ c) (σ : List ℕ) :
    pmem j (stepDist c k σ) = indMem j (σ ++ [k]) := by
  unfold pmem stepDist
  rw [if_pos hk, lsum_dpure]

theorem lsum_indMem_accept (c k j : ℕ) (σ : List ℕ) (hlen : σ.length = c) :
    lsum (indMem j) (dbind (choiceDist c) (fun s => dpure (σ.set s k)))
      = ((List.range σ.length).map
          (fun s => if j ∈ σ.set s k then (1 : ℚ) else 0)).sum * (1 / (c : ℚ)) := by
  rw [lsum_dbind]
  have hpoint : ∀ x ∈ choiceDist c,
      lsum (indMem j) (dpure (σ.set x.1 k)) = indMem j (σ.set x.1 k) :=
    fun x _ => lsum_dpure _ _
  rw [lsum_congr _ (fun s => indMem j (σ.set s k)) _ hpoint]
  unfold choiceDist
  rw [lsum_map_pair, hlen]
  rfl

theorem pmem_stepDist_new (c k : ℕ) (hc : 1 ≤ c) (hck : c < k) (σ : List ℕ)
    (hlen : σ.length = c) (hnotin : k ∉ σ) :
    pmem k (stepDist c k σ) = (c : ℚ) / (k : ℚ) := by
  have hcne : (c : ℚ) ≠ 0 := Nat.cast_ne_zero.mpr (by omega)
  unfold pmem stepDist
  rw [if_neg (by omega : ¬ k ≤ c), lsum_dbind, lsum_acceptDist_eval]
  simp only [Bool.cond_true, Bool.cond_false]
  rw [lsum_indMem_accept c k k σ hlen, sum_mem_set_self σ k, lsum_dpure, hlen]
  have h0 : indMem k σ = 0 := by simp [indMem, hnotin]
  rw [h0, mul_one_div, div_self hcne]
  ring

theorem pmem_stepDist_old (c k j : ℕ) (hc : 1 ≤ c) (hck : c < k) (hjk : j ≠ k)
    (σ : List ℕ) (hlen : σ.length = c) (hnd : σ.Nodup) :
    pmem j (stepDist c k σ) = (1 - 1 / (k : ℚ)) * indMem j σ := by
  have hcne : (c : ℚ) ≠ 0 := Nat.cast_ne_zero.mpr (by omega)
  have hkne : (k : ℚ) ≠ 0 := Nat.cast_ne_zero.mpr (by omega)
  unfold pmem stepDist
  rw [if_neg (by omega : ¬ k ≤ c), lsum_dbind, lsum_acceptDist_eval]
  simp only [Bool.cond_true, Bool.cond_false]
  rw [lsum_indMem_accept c k j σ hlen, lsum_dpure]
  by_cases hj : j ∈ σ
  · rw [sum_mem_set_of_mem σ j k hnd hj hjk]
    have h1 : indMem j σ = 1 := by simp [indMem, hj]
    rw [h1, hlen]
    field_simp
  · rw [sum_mem_set_of_notmem σ j k hj hjk]
    have h0 : indMem j σ = 0 := by simp [indMem, hj]
    rw [h0]
    ring

/-!
## The reservoir-sampling membership probability
-/

theorem pmem_evolve (c : ℕ) (hc : 1 ≤ c) :
    ∀ n j, 1 ≤ j → j ≤ n →
      pmem j (evolve c n) = min 1 ((c : ℚ) / (n : ℚ)) := by
  intro n
  induction n with
  | zero => intro j h1 h2; omega
  | succ n ih =>
    intro j h1 h2
    have hev : pmem j (evolve c (n + 1)) =
        lsum (fun σ => pmem j (stepDist c (n + 1) σ)) (evolve c n) := by
      show lsum (indMem j) (dbind (evolve c n) (stepDist c (n + 1))) = _
      rw [lsum_dbind]
      rfl
    have hnpos : (0 : ℚ) < ((n + 1 : ℕ) : ℚ) := by positivity
    by_cases hk : n + 1 ≤ c
    · have hge1 : (1 : ℚ) ≤ (c : ℚ) / ((n + 1 : ℕ) : ℚ) := by
        rw [one_le_div hnpos]
        exact_mod_cast hk
      by_cases hj : j = n + 1
      · subst hj
        have hpoint : ∀ x ∈ evolve c n,
            pmem (n + 1) (stepDist c (n + 1) x.1) = (1 : ℚ) := by
          intro x hx
          rw [pmem_stepDist_fill c (n + 1) (n + 1) hk x.1]
          simp [indMem]
        rw [hev, lsum_congr _ (fun _ => (1 : ℚ)) _ hpoint, lsum_const_mass,
          mass_evolve c hc n, mul_one, min_eq_left hge1]
      · have hjn : j ≤ n := by omega
        have hpoint : ∀ x ∈ evolve c n,
            pmem j (stepDist c (n + 1) x.1) = indMem j x.1 := by
          intro x hx
          rw [pmem_stepDist_fill c (n + 1) j hk x.1]
          simp [indMem, List.mem_append, hj]
        rw [hev, lsum_congr _ (fun σ => indMem j σ) _ hpoint]
        have heq : lsum (fun σ => indMem j σ) (evolve c n) = pmem j (evolve c n) := rfl
        have hn0 : (0 : ℚ) < ((n : ℕ) : ℚ) := Nat.cast_pos.2 (by omega)
        have hge1' : (1 : ℚ) ≤ (c : ℚ) / ((n : ℕ) : ℚ) := by
          rw [one_le_div hn0]
          exact_mod_cast (by omega : n ≤ c)
        rw [heq, ih j h1 hjn, min_eq_left hge1', min_eq_left hge1]
    · have hcn : c ≤ n := by omega
      have hle1 : (c : ℚ) / ((n + 1 : ℕ) : ℚ) ≤ 1 := by
        rw [div_le_one hnpos]
        exact_mod_cast (by omega : c ≤ n + 1)
      by_cases hj : j = n + 1
      · subst hj
        have hpoint : ∀ x ∈ evolve c n,
            pmem (n + 1) (stepDist c (n + 1) x.1) =
              (c : ℚ) / ((n + 1 : ℕ) : ℚ) := by
          intro x hx
          obtain ⟨hlen, hnd, hbound⟩ := good_evolve c n x.1 ⟨x.2, Prod.mk.eta ▸ hx⟩
          have hlen' : x.1.length = c := by omega
          have hnotin : (n + 1) ∉ x.1 := fun hm => by have := (hbound _ hm).2; omega
          exact pmem_stepDist_new c (n + 1) hc (by omega) x.1 hlen' hnotin
        rw [hev, lsum_congr _ (fun _ => (c : ℚ) / ((n + 1 : ℕ) : ℚ)) _ hpoint,
          lsum_const_mass, mass_evolve c hc n, mul_one, min_eq_right hle1]
      · have hjn : j ≤ n := by omega
        have hpoint : ∀ x ∈ evolve c n,
            pmem j (stepDist c (n + 1) x.1) =
              (1 - 1 / ((n + 1 : ℕ) : ℚ)) * indMem j x.1 := by
          intro x hx
          obtain ⟨hlen, hnd, hbound⟩ := good_evolve c n x.1 ⟨x.2, Prod.mk.eta ▸ hx⟩
          have hlen' : x.1.length = c := by omega
          exact pmem_stepDist_old c (n + 1) j hc (by omega) hj x.1 hlen' hnd
        rw [hev, lsum_congr _ (fun σ => (1 - 1 / ((n + 1 : ℕ) : ℚ)) * indMem j σ) _
          hpoint, lsum_mul_left]
        have heq : lsum (indMem j) (evolve c n) = pmem j (evolve c n) := rfl
        rw [heq, ih j h1 hjn]
        have hn0 : (0 : ℚ) < ((n : ℕ) : ℚ) := Nat.cast_pos.2 (by omega)
        have hle1' : (c : ℚ) / ((n : ℕ) : ℚ) ≤ 1 := by
          rw [div_le_one hn0]
          exact_mod_cast hcn
        rw [min_eq_right hle1', min_eq_right hle1]
        have hne : ((n : ℕ) : ℚ) ≠ 0 := ne_of_gt hn0
        have hne1 : ((n + 1 : ℕ) : ℚ) ≠ 0 := ne_of_gt hnpos
        field_simp
        ring

/-- C3, counterexample: the claim that *at each point in time* every item has
probability `capacity / seen_count` of occupying a slot fails while the
reservoir is still filling: with capacity 2, after 1 item the first item is
in the sample with probability 1, whereas `capacity / seen_count = 2/1 = 2`
(not even a probability).  The distribution model assigns the item
probability 1, which differs from `2/1`. -/
theorem membership_probability_cex :
    pmem 1 (evolve 2 1) = 1 ∧ (1 : ℚ) ≠ (2 : ℚ) / ((1 : ℕ) : ℚ) := by
  constructor
  · simp [evolve, stepDist, dbind, dscale, dpure, pmem, lsum, indMem]
  · norm_num

/-- C3, amended: for a capacity-`c` reservoir (`c ≥ 1`) fed `n` stream items
through the sampling loop, every stream item `j ≤ n` occupies some slot of
the sample with probability `min 1 (c / n)` — that is, probability 1 while
the reservoir is filling (`n ≤ c`) and exactly `capacity / seen_count` from
the moment `seen_count ≥ capacity`, over the acceptance and slot-selection
draws of the loop. -/
theorem membership_probability (c n j : ℕ) (hc : 1 ≤ c) (h1 : 1 ≤ j)
    (hn : j ≤ n) : pmem j (evolve c n) = min 1 ((c : ℚ) / (n : ℚ)) :=
  pmem_evolve c hc n j h1 hn

theorem membership_probability_witness :
    pmem 1 (evolve 2 3) = min 1 (((2 : ℕ) : ℚ) / ((3 : ℕ) : ℚ)) :=
  membership_probability 2 3 1 (by decide) (by decide) (by decide)

end ReservoirSpec
